import Mathlib

/-!
Verification of the permutation-puzzle group library.

The development shallowly embeds the Rust sources:
* `src/group/free.rs` — free-group words with the imperative normalizer;
* `src/group/tree.rs` — straight-line programs (`SLP`) and their expansion;
* `src/group/permutation.rs` — sparse permutations on `0..n`;
* `src/group/mod.rs` — the stabilizer-chain construction (`Group::new`,
  `BaseStrongGeneratorLevel::new`, `transversal_for`, `strip`, `size`).

Hash maps are embedded as association lists queried by key; the unordered
iteration of a Rust `HashMap` is never observed by the functions modelled
here (only `get`/`contains_key`/`len`/`insert` and whole-map equality are
used).  `while` loops that are not structurally recursive take an explicit
fuel argument; every theorem below either holds for all fuels or picks a
fuel large enough for the concrete computation at hand.
-/

/-- Association-list lookup, the embedding of `HashMap::get`. -/
def alookup {α β : Type} [DecidableEq α] : List (α × β) → α → Option β
  | [], _ => none
  | (k, v) :: rest, x => if k = x then some v else alookup rest x

/-! ## Free-group words (`src/group/free.rs`) -/

namespace free

/-- One step state of the `normalize` loop in `free.rs`: remaining input,
the output stack `normalized` (kept reversed: the Rust `Vec` pushes and pops
at its end, so the list head is the top of the stack) and the `current`
accumulator pair. -/
def normLoop : List (Char × Int) → List (Char × Int) → (Char × Int) → List (Char × Int)
  | [], stack, current =>
    if current.2 ≠ 0 then (current :: stack).reverse else stack.reverse
  | p :: rest, stack, current =>
    if p.1 = current.1 then
      normLoop rest stack (current.1, current.2 + p.2)
    else if current.2 ≠ 0 then
      normLoop rest (current :: stack) p
    else
      match stack with
      | prev :: stackRest => normLoop (p :: rest) stackRest prev
      | [] => normLoop rest [] p
termination_by l s _ => 2 * l.length + s.length
decreasing_by all_goals simp_arith

/-- `normalize` from `free.rs`: inputs of length at most one are returned
unchanged; otherwise the single-pass stack loop runs. -/
def normalize (elements : List (Char × Int)) : List (Char × Int) :=
  if elements.length ≤ 1 then elements
  else
    match elements with
    | [] => []
    | c :: rest => normLoop rest [] c

/-- The `Word` struct of `free.rs`. -/
structure Word where
  terms : List (Char × Int)
deriving DecidableEq

/-- `Word::identity`. -/
def Word.identity : Word := ⟨normalize []⟩

/-- `Word::generator`. -/
def Word.generator (symbol : Char) : Word := ⟨normalize [(symbol, 1)]⟩

/-- `Word::new`. -/
def Word.new (elements : List (Char × Int)) : Word := ⟨normalize elements⟩

/-- `GroupElement::is_identity` for `Word`. -/
def Word.is_identity (w : Word) : Bool := w.terms.length == 0

/-- `GroupElement::times` for `Word`: concatenate and renormalize. -/
def Word.times (w m : Word) : Word := ⟨normalize (w.terms ++ m.terms)⟩

/-- The reversal-and-negation of `Word::inverse`. -/
def revneg (l : List (Char × Int)) : List (Char × Int) :=
  (l.map (fun e => (e.1, -e.2))).reverse

/-- `GroupElement::inverse` for `Word`: reverse the terms, negate each
exponent, no renormalization. -/
def Word.inverse (w : Word) : Word := ⟨revneg w.terms⟩

/-- The reduced-form invariant from the spec: no zero exponent and no two
adjacent pairs sharing a symbol. -/
def Reduced (l : List (Char × Int)) : Prop :=
  l.Chain' (fun a b => a.1 ≠ b.1) ∧ ∀ p ∈ l, p.2 ≠ 0

instance : DecidablePred Reduced := fun l => by
  unfold Reduced; infer_instance

theorem normLoop_nil (stack : List (Char × Int)) (cur : Char × Int) :
    normLoop [] stack cur
      = if cur.2 ≠ 0 then (cur :: stack).reverse else stack.reverse := by
  rw [normLoop.eq_def]

theorem normLoop_merge (p : Char × Int) (rest stack : List (Char × Int))
    (cur : Char × Int) (h : p.1 = cur.1) :
    normLoop (p :: rest) stack cur = normLoop rest stack (cur.1, cur.2 + p.2) := by
  rw [normLoop.eq_def]; simp [h]

theorem normLoop_push (p : Char × Int) (rest stack : List (Char × Int))
    (cur : Char × Int) (h1 : ¬ p.1 = cur.1) (h2 : cur.2 ≠ 0) :
    normLoop (p :: rest) stack cur = normLoop rest (cur :: stack) p := by
  rw [normLoop.eq_def]; simp [h1, h2]

theorem normLoop_pop (p : Char × Int) (rest stackRest : List (Char × Int))
    (prev cur : Char × Int) (h1 : ¬ p.1 = cur.1) (h2 : cur.2 = 0) :
    normLoop (p :: rest) (prev :: stackRest) cur
      = normLoop (p :: rest) stackRest prev := by
  rw [normLoop.eq_def]; simp [h1, h2]

theorem normLoop_zero (p : Char × Int) (rest : List (Char × Int))
    (cur : Char × Int) (h1 : ¬ p.1 = cur.1) (h2 : cur.2 = 0) :
    normLoop (p :: rest) [] cur = normLoop rest [] p := by
  rw [normLoop.eq_def]; simp [h1, h2]

/-- The stack maintained by the `normalize` loop always holds non-zero,
adjacently-distinct pairs whose top differs from `current`; under that
invariant the loop's output is reduced. -/
theorem normLoop_reduced :
    ∀ (l stack : List (Char × Int)) (current : Char × Int),
      (∀ q ∈ stack, q.2 ≠ 0) →
      stack.Chain' (fun a b => a.1 ≠ b.1) →
      (∀ q ∈ stack.head?, q.1 ≠ current.1) →
      Reduced (normLoop l stack current) := by
  intro l stack current
  induction l, stack, current using normLoop.induct with
  | case1 stack current hcur =>
    intro hz hc hhead
    rw [normLoop_nil, if_pos hcur]
    constructor
    · rw [List.chain'_reverse]
      have hcons : (current :: stack).Chain' (fun a b => a.1 ≠ b.1) :=
        List.chain'_cons'.mpr ⟨fun b hb => Ne.symm (hhead b hb), hc⟩
      exact List.Chain'.imp (fun a b h => Ne.symm h) hcons
    · intro p hp
      rcases List.mem_cons.mp (List.mem_reverse.mp hp) with h | h
      · subst h; exact hcur
      · exact hz _ h
  | case2 stack current hcur =>
    intro hz hc _
    rw [normLoop_nil, if_neg hcur]
    constructor
    · rw [List.chain'_reverse]
      exact List.Chain'.imp (fun a b h => Ne.symm h) hc
    · intro p hp
      exact hz _ (List.mem_reverse.mp hp)
  | case3 p rest stack current hmerge ih =>
    intro hz hc hhead
    rw [normLoop_merge p rest stack current hmerge]
    exact ih hz hc hhead
  | case4 p rest stack current hne hcur ih =>
    intro hz hc hhead
    rw [normLoop_push p rest stack current hne hcur]
    refine ih ?_ ?_ ?_
    · intro q hq
      rcases List.mem_cons.mp hq with h | h
      · subst h; exact hcur
      · exact hz _ h
    · exact List.chain'_cons'.mpr ⟨fun b hb => Ne.symm (hhead b hb), hc⟩
    · intro q hq
      simp only [List.head?_cons, Option.mem_def, Option.some.injEq] at hq
      subst hq
      exact fun h => hne h.symm
  | case5 p rest current hne hcur prev stackRest ih =>
    intro hz hc hhead
    rw [normLoop_pop p rest stackRest prev current hne (by omega)]
    refine ih ?_ ?_ ?_
    · exact fun q hq => hz q (List.mem_cons_of_mem _ hq)
    · exact (List.chain'_cons'.mp hc).2
    · exact fun q hq => Ne.symm ((List.chain'_cons'.mp hc).1 q hq)
  | case6 p rest current hne hcur ih =>
    intro _ _ _
    rw [normLoop_zero p rest current hne (by omega)]
    exact ih (by simp) (by simp) (by simp)

/-- `normalize` produces a reduced word on every input whose length is not
exactly one. -/
theorem normalize_reduced (l : List (Char × Int)) (hlen : l.length ≠ 1) :
    Reduced (normalize l) := by
  match l with
  | [] =>
    rw [show normalize [] = [] from rfl]
    exact ⟨List.chain'_nil, by simp⟩
  | [x] => exact absurd rfl hlen
  | c :: d :: rest =>
    have h : ¬ (c :: d :: rest).length ≤ 1 := by simp
    unfold normalize
    rw [if_neg h]
    exact normLoop_reduced (d :: rest) [] c (by simp) List.chain'_nil (by simp)

/-- A singleton input with non-zero exponent is returned reduced. -/
theorem normalize_reduced_singleton (s : Char) (e : Int) (he : e ≠ 0) :
    Reduced (normalize [(s, e)]) := by
  unfold normalize
  rw [if_pos (by simp)]
  exact ⟨List.chain'_singleton _, by simpa using he⟩

/-- Scanning an already-reduced segment only pushes it onto the stack. -/
theorem normLoop_scan :
    ∀ (mid : List (Char × Int)) (a : Char × Int) (rest stack : List (Char × Int))
      (cur : Char × Int),
      (cur :: (mid ++ [a])).Chain' (fun x y => x.1 ≠ y.1) →
      (∀ p ∈ cur :: (mid ++ [a]), p.2 ≠ 0) →
      normLoop ((mid ++ [a]) ++ rest) stack cur
        = normLoop rest ((cur :: mid).reverse ++ stack) a := by
  intro mid
  induction mid with
  | nil =>
    intro a rest stack cur hchain hnz
    have hne : ¬ a.1 = cur.1 := by
      have := List.chain'_cons.mp hchain
      exact fun h => this.1 h.symm
    have hcur : cur.2 ≠ 0 := hnz cur (by simp)
    simp only [List.nil_append, List.reverse_singleton, List.singleton_append]
    rw [normLoop_push a rest stack cur hne hcur]
  | cons p mid ih =>
    intro a rest stack cur hchain hnz
    have hne : ¬ p.1 = cur.1 := by
      have := List.chain'_cons.mp hchain
      exact fun h => this.1 h.symm
    have hcur : cur.2 ≠ 0 := hnz cur (by simp)
    have step : normLoop ((p :: mid ++ [a]) ++ rest) stack cur
        = normLoop ((mid ++ [a]) ++ rest) (cur :: stack) p := by
      rw [show ((p :: mid ++ [a]) ++ rest) = p :: ((mid ++ [a]) ++ rest) by simp]
      rw [normLoop_push p ((mid ++ [a]) ++ rest) stack cur hne hcur]
    rw [step, ih a rest (cur :: stack) p (List.chain'_cons.mp hchain).2
      (fun q hq => hnz q (List.mem_cons_of_mem _ hq))]
    simp

/-- `normalize` is the identity on reduced lists. -/
theorem normalize_of_reduced (l : List (Char × Int)) (hred : Reduced l) :
    normalize l = l := by
  by_cases h : l.length ≤ 1
  · unfold normalize
    rw [if_pos h]
  · match l, h with
    | c :: rest, h =>
      rcases rest.eq_nil_or_concat with rfl | ⟨mid, a, hcat⟩
      · simp at h
      · rw [List.concat_eq_append] at hcat
        subst hcat
        have hz : (a : Char × Int).2 ≠ 0 := hred.2 a (by simp)
        unfold normalize
        rw [if_neg h]
        show normLoop (mid ++ [a]) [] c = c :: (mid ++ [a])
        have := normLoop_scan mid a [] [] c hred.1 hred.2
        rw [List.append_nil] at this
        rw [this, normLoop_nil, if_pos hz]
        simp

/-- Walking back over a reduced word with a zero accumulator cancels it
completely: the inverse terms pop the stack pair by pair. -/
theorem normLoop_cancel :
    ∀ (l : List (Char × Int)) (z : Char),
      (∀ p ∈ l, p.2 ≠ 0) →
      l.Chain' (fun x y => x.1 ≠ y.1) →
      (∀ q ∈ l.getLast?, q.1 ≠ z) →
      normLoop (revneg l) l.reverse (z, 0) = [] := by
  intro l
  induction l using List.reverseRecOn with
  | nil =>
    intro z _ _ _
    rw [show revneg [] = [] from rfl, List.reverse_nil, normLoop_nil]
    simp
  | append_singleton l a ih =>
    intro z hnz hchain hlast
    have hrevneg : revneg (l ++ [a]) = (a.1, -a.2) :: revneg l := by
      simp [revneg]
    have hrev : (l ++ [a]).reverse = a :: l.reverse := by simp
    rw [hrevneg, hrev]
    have hne : ¬ (a.1, -a.2).1 = (z, (0 : Int)).1 := by
      have := hlast a (by simp)
      simpa using this
    rw [normLoop_pop _ _ _ _ _ hne rfl]
    rw [normLoop_merge (a.1, -a.2) (revneg l) l.reverse a rfl]
    have hstep : ((a : Char × Int).1, a.2 + (a.1, -a.2).2) = (a.1, (0 : Int)) := by
      simp
    rw [hstep]
    rcases List.chain'_append.mp hchain with ⟨hcl, _, hlink⟩
    refine ih a.1 (fun p hp => hnz p (by simp [hp])) hcl ?_
    intro q hq
    exact hlink q hq a (by simp)

/-- Every `normalize` output is reduced except possibly a kept-as-is
singleton with zero exponent. -/
theorem normalize_reduced_or (l : List (Char × Int)) :
    Reduced (normalize l) ∨ ∃ s, normalize l = [(s, 0)] := by
  by_cases hlen : l.length = 1
  · rcases List.length_eq_one.mp hlen with ⟨p, rfl⟩
    by_cases hz : p.2 = 0
    · right
      refine ⟨p.1, ?_⟩
      rw [show normalize [p] = [p] from rfl]
      rw [show p = (p.1, p.2) from rfl, hz]
    · left
      rw [show p = (p.1, p.2) from rfl]
      exact normalize_reduced_singleton p.1 p.2 hz
  · exact Or.inl (normalize_reduced l hlen)

/-- `revneg` maps reduced lists to reduced lists. -/
theorem reduced_revneg (l : List (Char × Int)) (h : Reduced l) :
    Reduced (revneg l) := by
  constructor
  · unfold revneg
    rw [List.chain'_reverse]
    rw [List.chain'_map]
    exact List.Chain'.imp (fun a b hne => Ne.symm hne) h.1
  · intro p hp
    unfold revneg at hp
    rw [List.mem_reverse, List.mem_map] at hp
    rcases hp with ⟨q, hq, rfl⟩
    simpa using h.2 q hq

/-- The set of `Word` values reachable through the public constructors of
`free.rs` (all Rust-side `Word`s, since `terms` is private). -/
inductive Reachable : Word → Prop
  | identity : Reachable Word.identity
  | generator (s : Char) : Reachable (Word.generator s)
  | new (l : List (Char × Int)) : Reachable (Word.new l)
  | times {a b : Word} : Reachable a → Reachable b → Reachable (a.times b)
  | inverse {a : Word} : Reachable a → Reachable a.inverse

/-- Every reachable word is reduced, except possibly a singleton with zero
exponent produced by `Word::new` on a length-one input. -/
theorem reachable_reduced {w : Word} (h : Reachable w) :
    Reduced w.terms ∨ ∃ s, w.terms = [(s, 0)] := by
  induction h with
  | identity => exact normalize_reduced_or []
  | generator s => exact normalize_reduced_or [(s, 1)]
  | new l => exact normalize_reduced_or l
  | times ha hb _ _ => exact normalize_reduced_or _
  | inverse ha ih =>
    rcases ih with hred | ⟨s, hs⟩
    · exact Or.inl (reduced_revneg _ hred)
    · right
      refine ⟨s, ?_⟩
      show revneg _ = _
      rw [hs]
      simp [revneg]

/-- Multiplying any reachable-shaped word by its inverse yields the empty
word: the `normalize` scan cancels the two halves pair by pair. -/
theorem times_inverse_cancel (w : Word)
    (h : Reduced w.terms ∨ ∃ s, w.terms = [(s, 0)]) :
    w.times w.inverse = Word.identity := by
  show Word.mk (normalize (w.terms ++ revneg w.terms)) = Word.mk (normalize [])
  rcases h with hred | ⟨s, hs⟩
  · match hterms : w.terms with
    | [] => rfl
    | [p] =>
      show Word.mk (normalize [p, (p.1, -p.2)]) = _
      have hne : ¬ ([p, (p.1, -p.2)]).length ≤ 1 := by simp
      unfold normalize
      rw [if_neg hne, if_pos (by simp)]
      show Word.mk (normLoop [(p.1, -p.2)] [] p) = Word.mk []
      rw [normLoop_merge (p.1, -p.2) [] [] p rfl]
      rw [show ((p : Char × Int).1, p.2 + (p.1, -p.2).2) = (p.1, (0 : Int)) by simp]
      rw [normLoop_nil]
      simp
    | c :: d :: rest =>
      rw [hterms] at hred
      rcases (d :: rest).eq_nil_or_concat with habs | ⟨mid, a, hcat⟩
      · simp at habs
      · rw [List.concat_eq_append] at hcat
        rw [hcat] at hred
        rw [hcat]
        have hlen2 : ¬ ((c :: (mid ++ [a])) ++ revneg (c :: (mid ++ [a]))).length ≤ 1 := by
          simp
        unfold normalize
        rw [if_neg hlen2, if_pos (by simp)]
        show Word.mk (normLoop ((mid ++ [a]) ++ revneg (c :: (mid ++ [a]))) [] c) = Word.mk []
        rw [normLoop_scan mid a _ [] c hred.1 hred.2]
        have hrevneg : revneg ((c :: mid) ++ [a]) = (a.1, -a.2) :: revneg (c :: mid) := by
          simp [revneg]
        rw [show (c :: (mid ++ [a])) = ((c :: mid) ++ [a]) by simp, hrevneg]
        rw [normLoop_merge (a.1, -a.2) (revneg (c :: mid)) _ a rfl]
        rw [show ((a : Char × Int).1, a.2 + (a.1, -a.2).2) = (a.1, (0 : Int)) by simp]
        rw [List.append_nil]
        have hchain : (c :: mid).Chain' (fun x y => x.1 ≠ y.1) := by
          have := hred.1
          rw [show (c :: (mid ++ [a])) = ((c :: mid) ++ [a]) by simp] at this
          exact (List.chain'_append.mp this).1
        have hlast : ∀ q ∈ (c :: mid).getLast?, q.1 ≠ a.1 := by
          have := hred.1
          rw [show (c :: (mid ++ [a])) = ((c :: mid) ++ [a]) by simp] at this
          intro q hq
          exact (List.chain'_append.mp this).2.2 q hq a (by simp)
        have hnz : ∀ p ∈ (c :: mid), p.2 ≠ 0 := by
          intro p hp
          refine hred.2 p ?_
          rw [show (c :: (mid ++ [a])) = ((c :: mid) ++ [a]) by simp]
          exact List.mem_append_left _ hp
        rw [normLoop_cancel (c :: mid) a.1 hnz hchain hlast]
  · rw [hs]
    show Word.mk (normalize [(s, 0), (s, -0)]) = _
    have hne : ¬ ([(s, (0 : Int)), (s, -0)]).length ≤ 1 := by simp
    unfold normalize
    rw [if_neg hne, if_pos (by simp)]
    show Word.mk (normLoop [(s, -0)] [] (s, 0)) = Word.mk []
    rw [normLoop_merge (s, -0) [] [] (s, 0) rfl]
    rw [normLoop_nil]
    simp

end free

/-- C6 (counterexample): the claim fails as stated — `Word::new` on the
single-pair input `[('a', 0)]` stores the pair unchanged, so the produced
word contains a zero-exponent term, violating the reduced-form invariant. -/
theorem claim_C6_counterexample :
    (free.Word.new [('a', 0)]).terms = [('a', 0)]
      ∧ ¬ free.Reduced (free.Word.new [('a', 0)]).terms := by
  constructor
  · rfl
  · intro h
    exact h.2 ('a', 0) (by rw [show (free.Word.new [('a', 0)]).terms = [('a', 0)] from rfl]; simp) rfl

/-- C6 (amended): every `Word` produced by `identity`, `generator`, `times`
and `inverse` (on reduced inputs) satisfies the reduced-form invariant, and
`Word::new` does so for every input sequence whose length is not exactly
one; a single-pair input is stored as-is, so it is reduced exactly when its
exponent is non-zero. -/
theorem claim_C6 :
    free.Reduced free.Word.identity.terms
    ∧ (∀ s : Char, free.Reduced (free.Word.generator s).terms)
    ∧ (∀ l : List (Char × Int), l.length ≠ 1 → free.Reduced (free.Word.new l).terms)
    ∧ (∀ (s : Char) (e : Int), e ≠ 0 → free.Reduced (free.Word.new [(s, e)]).terms)
    ∧ (∀ a b : free.Word, free.Reduced a.terms → free.Reduced b.terms →
        free.Reduced (a.times b).terms)
    ∧ (∀ a : free.Word, free.Reduced a.terms → free.Reduced a.inverse.terms) := by
  refine ⟨?_, ?_, ?_, ?_, ?_, ?_⟩
  · exact free.normalize_reduced [] (by simp)
  · intro s
    exact free.normalize_reduced_singleton s 1 (by norm_num)
  · intro l hl
    exact free.normalize_reduced l hl
  · intro s e he
    exact free.normalize_reduced_singleton s e he
  · intro a b ha hb
    show free.Reduced (free.normalize (a.terms ++ b.terms))
    by_cases hlen : (a.terms ++ b.terms).length = 1
    · cases han : a.terms with
      | nil =>
        rw [List.nil_append, free.normalize_of_reduced _ hb]
        exact hb
      | cons x xs =>
        cases hbn : b.terms with
        | nil =>
          rw [han] at ha
          rw [List.append_nil, free.normalize_of_reduced _ ha]
          exact ha
        | cons y ys =>
          exfalso
          rw [han, hbn] at hlen
          simp at hlen
    · exact free.normalize_reduced _ hlen
  · intro a ha
    exact free.reduced_revneg a.terms ha

/-- C6 (witness): concrete instance of the amended invariant theorem. -/
theorem claim_C6_witness :
    free.Reduced (free.Word.new [('a', 1), ('b', 1), ('b', -1)]).terms :=
  claim_C6.2.2.1 [('a', 1), ('b', 1), ('b', -1)] (by simp)

/-- C7: `normalize` is idempotent on every finite sequence, and every
constructible `Word` multiplied by its own inverse is the identity word. -/
theorem claim_C7 :
    (∀ l : List (Char × Int), free.normalize (free.normalize l) = free.normalize l)
    ∧ (∀ w : free.Word, free.Reachable w → w.times w.inverse = free.Word.identity) := by
  constructor
  · intro l
    by_cases hlen : l.length = 1
    · rcases List.length_eq_one.mp hlen with ⟨p, rfl⟩
      rfl
    · exact free.normalize_of_reduced _ (free.normalize_reduced l hlen)
  · intro w hw
    exact free.times_inverse_cancel w (free.reachable_reduced hw)

/-- C7 (witness): concrete instance at a two-generator word. -/
theorem claim_C7_witness :
    (free.Word.new [('a', 1), ('b', 2)]).times
        (free.Word.new [('a', 1), ('b', 2)]).inverse = free.Word.identity :=
  claim_C7.2 (free.Word.new [('a', 1), ('b', 2)])
    (free.Reachable.new [('a', 1), ('b', 2)])

/-! ## Straight-line programs (`src/group/tree.rs`) -/

namespace tree

/-- The `SLP` enum of `tree.rs`; generator indices are `u64`, modelled as
`Nat`. -/
inductive SLP : Type
  | Identity : SLP
  | Generator : Nat → SLP
  | Product : SLP → SLP → SLP
  | Inverse : SLP → SLP
deriving DecidableEq

/-- `GroupElement::is_identity` for `SLP`: true only for the literal
`Identity` node. -/
def SLP.is_identity : SLP → Bool
  | SLP.Identity => true
  | _ => false

/-- `GroupElement::times` for `SLP`: always a fresh `Product` node. -/
def SLP.times (a b : SLP) : SLP := SLP.Product a b

/-- `GroupElement::inverse` for `SLP`: always a fresh `Inverse` node. -/
def SLP.inverse (a : SLP) : SLP := SLP.Inverse a

/-- A `Morphism<SLP, Word>` from `mod.rs`: a map from `SLP` keys (generator
nodes) to `Word` images, embedded as an association list. -/
def Morphism : Type := List (SLP × free.Word)

/-- `Morphism::transform`: look the element up among the generator images;
`none` models the `expect("should have an image")` panic. -/
def Morphism.transform (m : Morphism) (element : SLP) : Option free.Word :=
  alookup m element

/-- `SLP::transform`: recursively expand the tree into a `Word` through the
morphism, propagating a missing-image panic as `none`. -/
def SLP.transform : SLP → Morphism → Option free.Word
  | SLP.Identity, _ => some free.Word.identity
  | SLP.Generator g, m => m.transform (SLP.Generator g)
  | SLP.Product left right, m =>
    match left.transform m, right.transform m with
    | some wl, some wr => some (wl.times wr)
    | _, _ => none
  | SLP.Inverse g, m =>
    match g.transform m with
    | some w => some w.inverse
    | none => none

/-- The generator tags occurring in an `SLP`. -/
def SLP.tags : SLP → List Nat
  | SLP.Identity => []
  | SLP.Generator g => [g]
  | SLP.Product left right => left.tags ++ right.tags
  | SLP.Inverse g => g.tags

/-- Modelled from the spec: the other evaluation path of the transform
property — substitute each generator tag by its image word and apply the
same `times`/`inverse` operations directly on free words. -/
def evalSLP : SLP → (Nat → free.Word) → free.Word
  | SLP.Identity, _ => free.Word.identity
  | SLP.Generator g, f => f g
  | SLP.Product left right, f => (evalSLP left f).times (evalSLP right f)
  | SLP.Inverse g, f => (evalSLP g f).inverse

end tree

/-- C3: when the morphism covers every generator tag of an `SLP`, the
recursive `transform` equals the word obtained by substituting each tag by
its image and applying the same `times`/`inverse` operations on words. -/
theorem claim_C3 (slp : tree.SLP) (m : tree.Morphism) (f : Nat → free.Word)
    (hcov : ∀ g ∈ slp.tags, alookup m (tree.SLP.Generator g) = some (f g)) :
    slp.transform m = some (tree.evalSLP slp f) := by
  induction slp with
  | Identity => rfl
  | Generator g =>
    show alookup m (tree.SLP.Generator g) = _
    rw [hcov g (by simp [tree.SLP.tags])]
    rfl
  | Product left right ihl ihr =>
    have hl := ihl (fun g hg => hcov g (by simp [tree.SLP.tags]; exact Or.inl hg))
    have hr := ihr (fun g hg => hcov g (by simp [tree.SLP.tags]; exact Or.inr hg))
    show tree.SLP.transform (tree.SLP.Product left right) m = _
    rw [tree.SLP.transform, hl, hr]
    rfl
  | Inverse g ih =>
    have hg := ih (fun t ht => hcov t (by simpa [tree.SLP.tags] using ht))
    show tree.SLP.transform (tree.SLP.Inverse g) m = _
    rw [tree.SLP.transform, hg]
    rfl

/-- C3 (witness): concrete instance, the `tree.rs` doc example. -/
theorem claim_C3_witness :
    ((tree.SLP.Generator 0).times ((tree.SLP.Generator 1).inverse)).transform
        [(tree.SLP.Generator 0, free.Word.generator 'a'),
         (tree.SLP.Generator 1, free.Word.generator 'b')]
      = some (tree.evalSLP ((tree.SLP.Generator 0).times ((tree.SLP.Generator 1).inverse))
          (fun g => if g = 0 then free.Word.generator 'a' else free.Word.generator 'b')) :=
  claim_C3 _ _ _ (by decide)

/-- C9: `SLP` operations are purely structural — `times` is the `Product`
node, `inverse` is the `Inverse` node, `is_identity` holds exactly for the
literal `Identity` node, and a generator times its own inverse is not
reported as the identity. -/
theorem claim_C9 :
    (∀ a b : tree.SLP, a.times b = tree.SLP.Product a b)
    ∧ (∀ a : tree.SLP, a.inverse = tree.SLP.Inverse a)
    ∧ (∀ a : tree.SLP, a.is_identity = true ↔ a = tree.SLP.Identity)
    ∧ (∀ g : Nat,
        ((tree.SLP.Generator g).times ((tree.SLP.Generator g).inverse)).is_identity
          = false) := by
  refine ⟨fun a b => rfl, fun a => rfl, ?_, fun g => rfl⟩
  intro a
  cases a <;> simp [tree.SLP.is_identity]

/-! ## Permutations (`src/group/permutation.rs`) -/

namespace permutation

/-- `HashMap::insert` on an association list: replace the value in place
when the key is present, append otherwise. -/
def pinsert (m : List (Nat × Nat)) (k v : Nat) : List (Nat × Nat) :=
  if (alookup m k).isSome then
    m.map (fun p => if p.1 = k then (k, v) else p)
  else m ++ [(k, v)]

/-- The `Permutation` struct: a size bound `n` and a sparse image map. -/
structure Permutation where
  n : Nat
  images : List (Nat × Nat)
deriving DecidableEq

/-- `Permutation::new`: the size bound is the number of entries of the
supplied mapping. -/
def Permutation.new (images : List (Nat × Nat)) : Permutation :=
  { n := images.length, images := images }

/-- `GroupAction::act_on` for `Permutation`: map lookup defaulting to the
point itself. -/
def Permutation.act_on (p : Permutation) (original : Nat) : Nat :=
  (alookup p.images original).getD original

/-- `GroupElement::is_identity` for `Permutation`: every point in `0..n` is
fixed. -/
def Permutation.is_identity (p : Permutation) : Bool :=
  (List.range p.n).all (fun i => p.act_on i == i)

/-- `GroupElement::times` for `Permutation`: compose the lookups over
`0..max(self.n, other.n)`. -/
def Permutation.times (p q : Permutation) : Permutation :=
  Permutation.new ((List.range (max p.n q.n)).map (fun i => (i, q.act_on (p.act_on i))))

/-- `GroupElement::inverse` for `Permutation`: insert `(image, original)`
for each point of `0..n`. -/
def Permutation.inverse (p : Permutation) : Permutation :=
  Permutation.new ((List.range p.n).foldl (fun m i => pinsert m (p.act_on i) i) [])

/-- `HashMap` equality: same number of entries and every entry of the first
map is present in the second. -/
def mapEqb (m1 m2 : List (Nat × Nat)) : Bool :=
  m1.length == m2.length && m1.all (fun kv => alookup m2 kv.1 == some kv.2)

/-- The derived `PartialEq` of `Permutation`: equal sizes and equal maps. -/
def Permutation.beq (p q : Permutation) : Bool :=
  p.n == q.n && mapEqb p.images q.images

end permutation

/-- C10: `Permutation::new` sets the bound `n` to the entry count of the
mapping, and `is_identity` only inspects `0..n`; the mapping `{5→6, 6→5}`
gets `n = 2` and is reported as the identity although it moves the point 5. -/
theorem claim_C10 :
    (∀ m : List (Nat × Nat), (permutation.Permutation.new m).n = m.length)
    ∧ (permutation.Permutation.new [(5, 6), (6, 5)]).n = 2
    ∧ (permutation.Permutation.new [(5, 6), (6, 5)]).is_identity = true
    ∧ (permutation.Permutation.new [(5, 6), (6, 5)]).act_on 5 = 6 := by
  refine ⟨fun m => rfl, rfl, by decide, by decide⟩

/-! ## The stabilizer chain (`src/group/mod.rs`)

The Rust code is generic over any type implementing `GroupElement` and
`GroupAction`; the embedding bundles those trait methods in `GOps`.  The
file `src/group/calculation.rs` (providing the `identity` helper used by
`transversal_for`) is declared in `mod.rs` but its source is not present,
so its result is modelled from the spec as the identity element carried in
the bundle. -/

/-- The `GroupElement` + `GroupAction` trait methods for element type `G`
acting on domain `D`, plus `PartialEq` as `beq`.  The field `identE` is
modelled from the spec: `calculation::identity(&generators)` is the
starting value of the running product in `transversal_for`, the identity
element of the group. -/
structure GOps (G : Type) (D : Type) where
  is_identity : G → Bool
  times : G → G → G
  inverse : G → G
  beq : G → G → Bool
  act : G → D → D
  identE : G

/-- Rust's `iter().enumerate()`. -/
def enumerate {α : Type} : Nat → List α → List (Nat × α)
  | _, [] => []
  | i, x :: rest => (i, x) :: enumerate (i + 1) rest

section chain

variable {G D : Type} [DecidableEq D]

/-- The backward walk of the free function `transversal_for` in `mod.rs`:
follow the Schreier vector from `x` to the sentinel `-1`, accumulating the
inverses of the discovering generators.  `none` models a panic (missing
key or generator index out of bounds); fuel bounds the loop. -/
def walkAux (ops : GOps G D) (gens : List G) (idx : List (D × Int)) :
    Nat → D → G → Option G
  | 0, _, _ => none
  | fuel + 1, x, acc =>
    match alookup idx x with
    | none => none
    | some (Int.negSucc 0) => some acc
    | some (Int.negSucc (_ + 1)) => none
    | some (Int.ofNat i) =>
      match gens.get? i with
      | none => none
      | some g =>
        walkAux ops gens idx fuel (ops.act (ops.inverse g) x)
          (ops.times acc (ops.inverse g))

/-- The free function `transversal_for(start, generators, indices)`: if
`start` is a key of the Schreier vector, walk back to the base and return
the inverse of the accumulated product. -/
def transversalFor (ops : GOps G D) (gens : List G) (idx : List (D × Int))
    (start : D) (fuel : Nat) : Option G :=
  if (alookup idx start).isSome then
    (walkAux ops gens idx fuel start ops.identE).map ops.inverse
  else none

/-- The `BaseStrongGeneratorLevel` struct: base point, the level's
generators, and the Schreier vector `indices`. -/
structure BSGLevel (G D : Type) where
  base : D
  gens : List G
  indices : List (D × Int)

/-- `BaseStrongGeneratorLevel::has_transversal_for`. -/
def BSGLevel.hasTransversalFor (ops : GOps G D) (lv : BSGLevel G D) (g : G) : Bool :=
  (alookup lv.indices (ops.act g lv.base)).isSome

/-- `BaseStrongGeneratorLevel::transversal_for`: act on the base, then walk
the Schreier vector.  The fuel `indices.length + 1` suffices because the
walk strictly descends the breadth-first tree. -/
def BSGLevel.transversalForElem (ops : GOps G D) (lv : BSGLevel G D) (g : G) : Option G :=
  transversalFor ops lv.gens lv.indices (ops.act g lv.base) (lv.indices.length + 1)

/-- `BaseStrongGeneratorLevel::length`: the orbit size. -/
def BSGLevel.levelLength (lv : BSGLevel G D) : Nat := lv.indices.length

/-- The mutable state of the breadth-first loop in
`BaseStrongGeneratorLevel::new`. -/
structure BfsState (G D : Type) where
  queue : List D
  indices : List (D × Int)
  stabs : List G

/-- The already-visited branch of the inner loop of
`BaseStrongGeneratorLevel::new`: rebuild the two transversals and collect
the Schreier generator `to * g * fro` if it is neither the identity nor a
duplicate; `_, _` models the two `unwrap()` panics, which the loop
invariant rules out. -/
def processGenStab (ops : GOps G D) (gens : List G) (x : D) (st : BfsState G D)
    (ig : Nat × G) : BfsState G D :=
  match transversalFor ops gens st.indices x (st.indices.length + 1),
      transversalFor ops gens st.indices (ops.act ig.2 x) (st.indices.length + 1) with
  | some t, some fr =>
    let stab := ops.times (ops.times t ig.2) (ops.inverse fr)
    if !ops.is_identity stab && !st.stabs.any (fun s => ops.beq s stab) then
      { st with stabs := st.stabs ++ [stab] }
    else st
  | _, _ => st

/-- One generator step of the inner `for (index, generator)` loop of
`BaseStrongGeneratorLevel::new`, processing generator `ig.2` (with index
`ig.1`) at the popped point `x`. -/
def processGen (ops : GOps G D) (gens : List G) (x : D) (st : BfsState G D)
    (ig : Nat × G) : BfsState G D :=
  if (alookup st.indices (ops.act ig.2 x)).isSome then
    processGenStab ops gens x st ig
  else
    { st with
      queue := st.queue ++ [ops.act ig.2 x]
      indices := (ops.act ig.2 x, Int.ofNat ig.1) :: st.indices }

/-- The `while !to_visit.is_empty()` loop of
`BaseStrongGeneratorLevel::new`; fuel bounds the number of popped points. -/
def bfsLoop (ops : GOps G D) (gens : List G) : Nat → BfsState G D → BfsState G D
  | 0, st => st
  | fuel + 1, st =>
    match st.queue with
    | [] => st
    | x :: rest =>
      bfsLoop ops gens fuel
        ((enumerate 0 gens).foldl (processGen ops gens x) { st with queue := rest })

/-- `BaseStrongGeneratorLevel::new(base, generators)`: run the
breadth-first orbit exploration and return the level together with the
collected Schreier stabilizers. -/
def bsglNew (ops : GOps G D) (base : D) (gens : List G) (fuel : Nat) :
    BSGLevel G D × List G :=
  let st := bfsLoop ops gens fuel
    { queue := [base], indices := [(base, -1)], stabs := [] }
  ({ base := base, gens := gens, indices := st.indices }, st.stabs)

/-- The free function `find_base(gset, generators)`: the image, under the
first generator that moves it, of the first point of the universe moved by
some generator. -/
def findBase (ops : GOps G D) : List D → List G → Option D
  | [], _ => none
  | p :: rest, gens =>
    match gens.find? (fun g => decide (ops.act g p ≠ p)) with
    | some g => some (ops.act g p)
    | none => findBase ops rest gens

/-- The `Group` struct: the list of chain levels. -/
structure GroupM (G D : Type) where
  levels : List (BSGLevel G D)

/-- The `while gs.len() > 0` loop of `Group::new`; `none` models the
`expect("generators should move something")` panic (and fuel running out
before the chain closes). -/
def groupNewAux (ops : GOps G D) (gset : List D) :
    Nat → List G → Option (List (BSGLevel G D))
  | 0, gs => if gs.isEmpty then some [] else none
  | fuel + 1, gs =>
    if gs.isEmpty then some []
    else
      match findBase ops gset gs with
      | none => none
      | some base =>
        let built := bsglNew ops base gs (fuel + 1)
        match groupNewAux ops gset fuel built.2 with
        | none => none
        | some rest => some (built.1 :: rest)

/-- `Group::new(gset, generators)`. -/
def groupNew (ops : GOps G D) (gset : List D) (gens : List G) (fuel : Nat) :
    Option (GroupM G D) :=
  (groupNewAux ops gset fuel gens).map GroupM.mk

/-- `Group::size`: fold multiplying each level's orbit length. -/
def GroupM.size (grp : GroupM G D) : Nat :=
  grp.levels.foldl (fun acc lv => acc * lv.levelLength) 1

/-- The `for level in &self.levels` loop of `Group::strip`; `none` models
the `expect("should have transversal")` panic. -/
def stripGo (ops : GOps G D) : List (BSGLevel G D) → G → Option G
  | [], e => some e
  | lv :: rest, e =>
    if lv.hasTransversalFor ops e then
      match lv.transversalForElem ops e with
      | some t => stripGo ops rest (ops.times e (ops.inverse t))
      | none => none
    else some e

/-- `Group::strip`. -/
def GroupM.strip (ops : GOps G D) (grp : GroupM G D) (e : G) : Option G :=
  stripGo ops grp.levels e

end chain

/-- The trait-method bundle for `Permutation` acting on `u64` points.  The
identity element (`calculation.rs` is not present in the sources) is
modelled from the spec as the permutation moving nothing, with an empty
map; only its action and its size bound are ever observable through
`times` in the functions verified here. -/
def permOps : GOps permutation.Permutation Nat :=
  { is_identity := permutation.Permutation.is_identity
    times := permutation.Permutation.times
    inverse := permutation.Permutation.inverse
    beq := permutation.Permutation.beq
    act := permutation.Permutation.act_on
    identE := { n := 0, images := [] } }

/-- The reflection `(0 1)(2 5)(3 4)` of the dihedral example. -/
def dihedralTransposition : permutation.Permutation :=
  permutation.Permutation.new [(0, 1), (1, 0), (2, 5), (5, 2), (3, 4), (4, 3)]

/-- The rotation `(0 1 2 3 4 5)` of the dihedral example. -/
def dihedralRotation : permutation.Permutation :=
  permutation.Permutation.new [(0, 1), (1, 2), (2, 3), (3, 4), (4, 5), (5, 0)]

/-- C1: the dihedral example — universe `[0,1,2,3,4,5]`, generators
`(0 1)(2 5)(3 4)` and `(0 1 2 3 4 5)` — builds a chain whose `size` is 12. -/
theorem claim_C1 :
    (groupNew permOps [0, 1, 2, 3, 4, 5]
        [dihedralTransposition, dihedralRotation] 50).map GroupM.size
      = some 12 := by decide

section findBaseLemmas

variable {G D : Type} [DecidableEq D]

/-- `find_base` returns `None` exactly when no generator moves any point of
the universe. -/
theorem findBase_eq_none_iff (ops : GOps G D) :
    ∀ (gset : List D) (gens : List G),
      findBase ops gset gens = none ↔ ∀ p ∈ gset, ∀ g ∈ gens, ops.act g p = p := by
  intro gset gens
  induction gset with
  | nil => simp [findBase]
  | cons p rest ih =>
    cases hf : gens.find? (fun g => decide (ops.act g p ≠ p)) with
    | some g =>
      rw [show findBase ops (p :: rest) gens
          = some (ops.act g p) by rw [findBase, hf]]
      constructor
      · intro h
        exact absurd h (by simp)
      · intro hall
        exfalso
        have hmem := List.mem_of_find?_eq_some hf
        have hprop := List.find?_some hf
        simp at hprop
        exact hprop (hall p (by simp) g hmem)
    | none =>
      rw [show findBase ops (p :: rest) gens = findBase ops rest gens by
        rw [findBase, hf]]
      rw [ih]
      have hfix : ∀ g ∈ gens, ops.act g p = p := by
        intro g hg
        have := List.find?_eq_none.mp hf g hg
        simpa using this
      constructor
      · intro h q hq g hg
        rcases List.mem_cons.mp hq with rfl | hq
        · exact hfix g hg
        · exact h q hq g hg
      · intro h q hq g hg
        exact h q (List.mem_cons_of_mem _ hq) g hg

/-- `find_base` returns the image of the first moved point under the first
generator moving it. -/
theorem findBase_first (ops : GOps G D) :
    ∀ (pre post : List D) (p : D) (gpre gpost : List G) (g : G),
      (∀ q ∈ pre, ∀ h ∈ gpre ++ g :: gpost, ops.act h q = q) →
      (∀ h ∈ gpre, ops.act h p = p) →
      ops.act g p ≠ p →
      findBase ops (pre ++ p :: post) (gpre ++ g :: gpost) = some (ops.act g p) := by
  intro pre
  induction pre with
  | nil =>
    intro post p gpre gpost g _ hgpre hmoves
    have hfind : ∀ (l : List G), (∀ h ∈ l, ops.act h p = p) →
        (l ++ g :: gpost).find? (fun h => decide (ops.act h p ≠ p)) = some g := by
      intro l
      induction l with
      | nil =>
        intro _
        rw [List.nil_append]
        exact List.find?_cons_of_pos _ (by simpa using hmoves)
      | cons h0 l ihg =>
        intro hfixl
        rw [List.cons_append]
        rw [List.find?_cons_of_neg _ (by simp [hfixl h0 (by simp)])]
        exact ihg (fun h hh => hfixl h (List.mem_cons_of_mem _ hh))
    rw [List.nil_append, findBase, hfind gpre hgpre]
  | cons q pre ih =>
    intro post p gpre gpost g hpre hgpre hmoves
    have hqfix : (gpre ++ g :: gpost).find? (fun h => decide (ops.act h q ≠ q))
        = none := by
      rw [List.find?_eq_none]
      intro h hh
      simp [hpre q (by simp) h hh]
    rw [List.cons_append, findBase, hqfix]
    exact ih post p gpre gpost g
      (fun r hr h hh => hpre r (List.mem_cons_of_mem _ hr) h hh) hgpre hmoves

end findBaseLemmas

/-- C8: during construction the chosen base point is the image, under the
first generator that moves it, of the first universe point moved by some
generator — not that point itself; and `find_base` is `None` exactly when
no generator moves any universe point. -/
theorem claim_C8 {G D : Type} [DecidableEq D] (ops : GOps G D) :
    (∀ (gset : List D) (gens : List G),
        findBase ops gset gens = none ↔ ∀ p ∈ gset, ∀ g ∈ gens, ops.act g p = p)
    ∧ (∀ (pre post : List D) (p : D) (gpre gpost : List G) (g : G),
        (∀ q ∈ pre, ∀ h ∈ gpre ++ g :: gpost, ops.act h q = q) →
        (∀ h ∈ gpre, ops.act h p = p) →
        ops.act g p ≠ p →
        findBase ops (pre ++ p :: post) (gpre ++ g :: gpost) = some (ops.act g p)
          ∧ findBase ops (pre ++ p :: post) (gpre ++ g :: gpost) ≠ some p) := by
  refine ⟨findBase_eq_none_iff ops, ?_⟩
  intro pre post p gpre gpost g hpre hgpre hmoves
  have h := findBase_first ops pre post p gpre gpost g hpre hgpre hmoves
  refine ⟨h, ?_⟩
  rw [h]
  intro hcontra
  exact hmoves (Option.some.injEq _ _ ▸ hcontra)

/-- C8 (witness): in the dihedral example the first universe point 0 is
moved by the first generator to 1, and `find_base` returns 1, not 0. -/
theorem claim_C8_witness :
    findBase permOps ([] ++ 0 :: [1, 2, 3, 4, 5])
        ([] ++ dihedralTransposition :: [dihedralRotation]) = some 1
      ∧ findBase permOps ([] ++ 0 :: [1, 2, 3, 4, 5])
        ([] ++ dihedralTransposition :: [dihedralRotation]) ≠ some 0 := by
  have h := (claim_C8 permOps).2 [] [1, 2, 3, 4, 5] 0 [] [dihedralRotation]
    dihedralTransposition (by simp) (by simp) (by decide)
  exact ⟨by rw [h.1]; decide, h.2⟩

/-- C5 (counterexample): the claim fails as stated for the empty generating
set — `Group::new` silently returns a group with an empty chain of levels
instead of aborting. -/
theorem claim_C5_counterexample :
    groupNew permOps [0, 1, 2] ([] : List permutation.Permutation) 10
      = some { levels := [] } := rfl

/-- C5 (amended): for every universe and every nonempty generating set in
which no generator moves any universe point, `Group::new` aborts (no group
is returned); the empty generating set instead yields a group with an
empty chain. -/
theorem claim_C5 {G D : Type} [DecidableEq D] (ops : GOps G D)
    (gset : List D) (gens : List G) (fuel : Nat) (hne : gens ≠ [])
    (hfix : ∀ p ∈ gset, ∀ g ∈ gens, ops.act g p = p) :
    groupNew ops gset gens fuel = none := by
  have hempty : gens.isEmpty = false := by
    cases gens with
    | nil => exact absurd rfl hne
    | cons g gs => rfl
  show (groupNewAux ops gset fuel gens).map GroupM.mk = none
  cases fuel with
  | zero =>
    rw [groupNewAux, hempty]
    rfl
  | succ fuel =>
    rw [groupNewAux, hempty]
    rw [(findBase_eq_none_iff ops gset gens).mpr hfix]
    simp

/-- C5 (witness): a nonempty generating set consisting of one permutation
fixing every universe point makes construction abort. -/
theorem claim_C5_witness :
    groupNew permOps [0, 1, 2] [permutation.Permutation.new [(0, 0)]] 5 = none :=
  claim_C5 permOps [0, 1, 2] [permutation.Permutation.new [(0, 0)]] 5
    (by simp) (by decide)

/-! ## The Schreier-vector invariant

The Rust chain code is generic in a `GroupElement + GroupAction`
implementation; the spec requires the action to be compatible with the
group structure (`(a.times(b)).act_on(p) == b.act_on(a.act_on(p))` and the
identity acting trivially).  `ActLaws` captures exactly those
compatibility requirements. -/

section invariant

variable {G D : Type} [DecidableEq D]

/-- The algebraic compatibility laws the spec demands of a
`GroupElement + GroupAction` implementation. -/
structure ActLaws (ops : GOps G D) : Prop where
  act_times : ∀ a b p, ops.act (ops.times a b) p = ops.act b (ops.act a p)
  act_inv : ∀ g p, ops.act (ops.inverse g) (ops.act g p) = p
  act_ident : ∀ p, ops.act ops.identE p = p
  inv_ident : ops.inverse ops.identE = ops.identE
  times_ident : ∀ g, ops.times g ops.identE = g

theorem walkAux_zero (ops : GOps G D) (gens : List G) (idx : List (D × Int))
    (x : D) (acc : G) : walkAux ops gens idx 0 x acc = none := rfl

theorem walkAux_base (ops : GOps G D) (gens : List G) (idx : List (D × Int))
    (fuel : Nat) (x : D) (acc : G) (h : alookup idx x = some (Int.negSucc 0)) :
    walkAux ops gens idx (fuel + 1) x acc = some acc := by
  rw [walkAux, h]

theorem walkAux_step (ops : GOps G D) (gens : List G) (idx : List (D × Int))
    (fuel : Nat) (x : D) (acc : G) (i : Nat) (g : G)
    (h : alookup idx x = some (Int.ofNat i)) (hg : gens.get? i = some g) :
    walkAux ops gens idx (fuel + 1) x acc
      = walkAux ops gens idx fuel (ops.act (ops.inverse g) x)
          (ops.times acc (ops.inverse g)) := by
  rw [walkAux, h]
  show (match gens.get? i with
    | none => none
    | some g =>
      walkAux ops gens idx fuel (ops.act (ops.inverse g) x)
        (ops.times acc (ops.inverse g))) = _
  rw [hg]

/-- `x` reaches the base in `n` backward steps of the Schreier vector. -/
inductive ReachesN (ops : GOps G D) (gens : List G) (idx : List (D × Int))
    (base : D) : Nat → D → Prop
  | base_entry : alookup idx base = some (Int.negSucc 0) →
      ReachesN ops gens idx base 0 base
  | step {n : Nat} {x : D} {i : Nat} {g : G} :
      alookup idx x = some (Int.ofNat i) →
      gens.get? i = some g →
      ReachesN ops gens idx base n (ops.act (ops.inverse g) x) →
      ReachesN ops gens idx base (n + 1) x

theorem alookup_cons_ne {α β : Type} [DecidableEq α] (m : List (α × β))
    (k x : α) (v : β) (h : ¬ k = x) : alookup ((k, v) :: m) x = alookup m x := by
  simp [alookup, h]

theorem alookup_cons_self {α β : Type} [DecidableEq α] (m : List (α × β))
    (k : α) (v : β) : alookup ((k, v) :: m) k = some v := by
  simp [alookup]

/-- Inserting a fresh key preserves every reachability derivation. -/
theorem reachesN_insert (ops : GOps G D) (gens : List G) (idx : List (D × Int))
    (base : D) (k : D) (v : Int) (hk : alookup idx k = none) :
    ∀ {n : Nat} {x : D}, ReachesN ops gens idx base n x →
      ReachesN ops gens ((k, v) :: idx) base n x := by
  intro n x h
  induction h with
  | base_entry hb =>
    refine ReachesN.base_entry ?_
    rw [alookup_cons_ne]
    · exact hb
    · rintro rfl
      rw [hk] at hb
      cases hb
  | step hlook hget _ ih =>
    refine ReachesN.step ?_ hget ih
    rw [alookup_cons_ne]
    · exact hlook
    · rintro rfl
      rw [hk] at hlook
      cases hlook

/-- The backward walk succeeds with enough fuel and its result carries any
accumulator action to the base. -/
theorem walkAux_spec (ops : GOps G D) (laws : ActLaws ops) (gens : List G)
    (idx : List (D × Int)) (base : D) :
    ∀ {n : Nat} {x : D}, ReachesN ops gens idx base n x →
      ∀ (fuel : Nat), n < fuel → ∀ (acc : G),
        ∃ r, walkAux ops gens idx fuel x acc = some r
          ∧ ∀ p, ops.act acc p = x → ops.act r p = base := by
  intro n x h
  induction h with
  | base_entry hb =>
    intro fuel hfuel acc
    match fuel, hfuel with
    | fuel + 1, _ =>
      exact ⟨acc, walkAux_base ops gens idx fuel base acc hb, fun p hp => hp⟩
  | step hlook hget _ ih =>
    intro fuel hfuel acc
    match fuel, hfuel with
    | fuel + 1, hfuel =>
      obtain ⟨r, hw, hact⟩ := ih fuel (by omega) (ops.times acc (ops.inverse _))
      refine ⟨r, ?_, ?_⟩
      · rw [walkAux_step ops gens idx fuel _ acc _ _ hlook hget]
        exact hw
      · intro p hp
        apply hact
        rw [laws.act_times, hp]

/-- The construction invariant of one level's Schreier vector: the base is
recorded with the sentinel, and every key reaches the base in fewer steps
than there are keys. -/
structure LevelInv (ops : GOps G D) (gens : List G) (base : D)
    (idx : List (D × Int)) : Prop where
  base_entry : alookup idx base = some (Int.negSucc 0)
  reach : ∀ x, (alookup idx x).isSome →
    ∃ n, n + 1 ≤ idx.length ∧ ReachesN ops gens idx base n x

/-- Under the invariant, `transversal_for` succeeds on any orbit point and
returns an element carrying the base to that point. -/
theorem transversalFor_spec (ops : GOps G D) (laws : ActLaws ops)
    (gens : List G) (base : D) (idx : List (D × Int))
    (hinv : LevelInv ops gens base idx) (start : D)
    (hs : (alookup idx start).isSome) (fuel : Nat)
    (hfuel : idx.length ≤ fuel) :
    ∃ t, transversalFor ops gens idx start fuel = some t
      ∧ ops.act t base = start := by
  obtain ⟨n, hb, hr⟩ := hinv.reach start hs
  obtain ⟨r, hw, hact⟩ := walkAux_spec ops laws gens idx base hr fuel
    (by omega) ops.identE
  refine ⟨ops.inverse r, ?_, ?_⟩
  · unfold transversalFor
    rw [if_pos hs, hw]
    rfl
  · have hr_start : ops.act r start = base := hact start (laws.act_ident start)
    calc ops.act (ops.inverse r) base
        = ops.act (ops.inverse r) (ops.act r start) := by rw [hr_start]
      _ = start := laws.act_inv r start

/-- Fixed points are preserved by `inverse`. -/
theorem act_fix_inverse (ops : GOps G D) (laws : ActLaws ops) {g : G} {b : D}
    (h : ops.act g b = b) : ops.act (ops.inverse g) b = b := by
  conv_lhs => rw [← h]
  exact laws.act_inv g b

/-- Fixed points are preserved by `times`. -/
theorem act_fix_times (ops : GOps G D) (laws : ActLaws ops) {a c : G} {b : D}
    (ha : ops.act a b = b) (hc : ops.act c b = b) :
    ops.act (ops.times a c) b = b := by
  rw [laws.act_times, ha, hc]

theorem walkAux_nokey (ops : GOps G D) (gens : List G) (idx : List (D × Int))
    (fuel : Nat) (x : D) (acc : G) (h : alookup idx x = none) :
    walkAux ops gens idx (fuel + 1) x acc = none := by
  rw [walkAux, h]

theorem walkAux_stuck (ops : GOps G D) (gens : List G) (idx : List (D × Int))
    (fuel : Nat) (x : D) (acc : G) (m : Nat)
    (h : alookup idx x = some (Int.negSucc (m + 1))) :
    walkAux ops gens idx (fuel + 1) x acc = none := by
  rw [walkAux, h]

theorem walkAux_nogen (ops : GOps G D) (gens : List G) (idx : List (D × Int))
    (fuel : Nat) (x : D) (acc : G) (i : Nat)
    (h : alookup idx x = some (Int.ofNat i)) (hg : gens.get? i = none) :
    walkAux ops gens idx (fuel + 1) x acc = none := by
  rw [walkAux, h]
  show (match gens.get? i with
    | none => none
    | some g =>
      walkAux ops gens idx fuel (ops.act (ops.inverse g) x)
        (ops.times acc (ops.inverse g))) = _
  rw [hg]

/-- Whatever the backward walk returns is a product of the accumulator and
generator inverses, so it fixes every point fixed by all of them. -/
theorem walkAux_fix (ops : GOps G D) (laws : ActLaws ops) (gens : List G)
    (idx : List (D × Int)) (b : D) (hgens : ∀ g ∈ gens, ops.act g b = b) :
    ∀ (fuel : Nat) (x : D) (acc r : G), ops.act acc b = b →
      walkAux ops gens idx fuel x acc = some r → ops.act r b = b := by
  intro fuel
  induction fuel with
  | zero =>
    intro x acc r _ hw
    rw [walkAux_zero] at hw
    cases hw
  | succ fuel ih =>
    intro x acc r hacc hw
    cases hl : alookup idx x with
    | none =>
      rw [walkAux_nokey ops gens idx fuel x acc hl] at hw
      cases hw
    | some iv =>
      match iv, hl with
      | Int.negSucc 0, hl =>
        rw [walkAux_base ops gens idx fuel x acc hl] at hw
        cases hw
        exact hacc
      | Int.negSucc (m + 1), hl =>
        rw [walkAux_stuck ops gens idx fuel x acc m hl] at hw
        cases hw
      | Int.ofNat i, hl =>
        cases hg : gens.get? i with
        | none =>
          rw [walkAux_nogen ops gens idx fuel x acc i hl hg] at hw
          cases hw
        | some g =>
          rw [walkAux_step ops gens idx fuel x acc i g hl hg] at hw
          refine ih _ _ r ?_ hw
          exact act_fix_times ops laws hacc
            (act_fix_inverse ops laws (hgens g (List.get?_mem hg)))

/-- Whatever `transversal_for` returns fixes every point fixed by all the
generators. -/
theorem transversalFor_fix (ops : GOps G D) (laws : ActLaws ops)
    (gens : List G) (idx : List (D × Int)) (b : D)
    (hgens : ∀ g ∈ gens, ops.act g b = b) (start : D) (fuel : Nat) (t : G)
    (ht : transversalFor ops gens idx start fuel = some t) :
    ops.act t b = b := by
  unfold transversalFor at ht
  by_cases hs : (alookup idx start).isSome
  · rw [if_pos hs] at ht
    cases hw : walkAux ops gens idx fuel start ops.identE with
    | none => rw [hw] at ht; cases ht
    | some r =>
      rw [hw] at ht
      have hr : ops.act r b = b :=
        walkAux_fix ops laws gens idx b hgens fuel start ops.identE r
          (laws.act_ident b) hw
      cases ht
      exact act_fix_inverse ops laws hr
  · rw [if_neg hs] at ht
    cases ht

/-- The full loop invariant of `BaseStrongGeneratorLevel::new`: the level
invariant on the Schreier vector, every queued point already a key, and all
collected stabilizers fixing the base and all earlier bases `bs`. -/
def BfsInvF (ops : GOps G D) (gens : List G) (base : D) (bs : List D)
    (st : BfsState G D) : Prop :=
  LevelInv ops gens base st.indices
  ∧ (∀ y ∈ st.queue, (alookup st.indices y).isSome)
  ∧ (∀ s ∈ st.stabs, (∀ b ∈ bs, ops.act s b = b) ∧ ops.act s base = base)

theorem enumerate_get? {α : Type} :
    ∀ (l : List α) (i : Nat) (p : Nat × α), p ∈ enumerate i l →
      ∃ j, p.1 = i + j ∧ l.get? j = some p.2 := by
  intro l
  induction l with
  | nil =>
    intro i p hp
    simp [enumerate] at hp
  | cons a l ih =>
    intro i p hp
    rw [enumerate] at hp
    rcases List.mem_cons.mp hp with rfl | hp
    · exact ⟨0, by simp, rfl⟩
    · obtain ⟨j, hj, hg⟩ := ih (i + 1) p hp
      exact ⟨j + 1, by omega, hg⟩

theorem enumerate_zero_get? {α : Type} (l : List α) (p : Nat × α)
    (hp : p ∈ enumerate 0 l) : l.get? p.1 = some p.2 := by
  obtain ⟨j, hj, hg⟩ := enumerate_get? l 0 p hp
  rw [hj, Nat.zero_add]
  exact hg

/-- The already-visited branch touches only the stabilizer list. -/
theorem processGenStab_state (ops : GOps G D) (gens : List G) (x : D)
    (st : BfsState G D) (ig : Nat × G) :
    (processGenStab ops gens x st ig).indices = st.indices
      ∧ (processGenStab ops gens x st ig).queue = st.queue := by
  unfold processGenStab
  cases transversalFor ops gens st.indices x (st.indices.length + 1) with
  | none => exact ⟨rfl, rfl⟩
  | some t =>
    cases transversalFor ops gens st.indices (ops.act ig.2 x)
        (st.indices.length + 1) with
    | none => exact ⟨rfl, rfl⟩
    | some fr =>
      dsimp only
      split
      · exact ⟨rfl, rfl⟩
      · exact ⟨rfl, rfl⟩

/-- Every stabilizer collected in the already-visited branch fixes the base
and all earlier bases. -/
theorem processGenStab_stabs (ops : GOps G D) (laws : ActLaws ops)
    (gens : List G) (base : D) (bs : List D)
    (hgens : ∀ g ∈ gens, ∀ b ∈ bs, ops.act g b = b)
    (x : D) (st : BfsState G D) (ig : Nat × G)
    (hig : gens.get? ig.1 = some ig.2)
    (hinv : LevelInv ops gens base st.indices)
    (hx : (alookup st.indices x).isSome)
    (himg : (alookup st.indices (ops.act ig.2 x)).isSome)
    (hold : ∀ s ∈ st.stabs, (∀ b ∈ bs, ops.act s b = b) ∧ ops.act s base = base) :
    ∀ s ∈ (processGenStab ops gens x st ig).stabs,
      (∀ b ∈ bs, ops.act s b = b) ∧ ops.act s base = base := by
  unfold processGenStab
  cases ht : transversalFor ops gens st.indices x (st.indices.length + 1) with
  | none => exact hold
  | some t =>
    cases hf : transversalFor ops gens st.indices (ops.act ig.2 x)
        (st.indices.length + 1) with
    | none => exact hold
    | some fr =>
      dsimp only
      split
      · intro s hs
        rcases List.mem_append.mp hs with hs | hs
        · exact hold s hs
        · rw [List.mem_singleton] at hs
          subst hs
          have hgmem : ig.2 ∈ gens := List.get?_mem hig
          obtain ⟨t', ht', hactt⟩ := transversalFor_spec ops laws gens base
            st.indices hinv x hx (st.indices.length + 1) (by omega)
          rw [ht] at ht'
          cases ht'
          obtain ⟨fr', hf', hactf⟩ := transversalFor_spec ops laws gens base
            st.indices hinv (ops.act ig.2 x) himg (st.indices.length + 1) (by omega)
          rw [hf] at hf'
          cases hf'
          constructor
          · intro b hb
            have hgensb : ∀ g ∈ gens, ops.act g b = b := fun g hg => hgens g hg b hb
            refine act_fix_times ops laws (act_fix_times ops laws ?_ ?_) ?_
            · exact transversalFor_fix ops laws gens st.indices b hgensb x _ t ht
            · exact hgens ig.2 hgmem b hb
            · exact act_fix_inverse ops laws
                (transversalFor_fix ops laws gens st.indices b hgensb _ _ fr hf)
          · rw [laws.act_times, laws.act_times, hactt]
            conv_lhs => rw [← hactf]
            exact laws.act_inv fr base
      · exact hold

/-- One inner-loop step preserves the full invariant and keeps the popped
point a key. -/
theorem processGen_pres (ops : GOps G D) (laws : ActLaws ops) (gens : List G)
    (base : D) (bs : List D)
    (hgens : ∀ g ∈ gens, ∀ b ∈ bs, ops.act g b = b)
    (x : D) (st : BfsState G D) (ig : Nat × G)
    (hig : gens.get? ig.1 = some ig.2)
    (hinv : BfsInvF ops gens base bs st)
    (hx : (alookup st.indices x).isSome) :
    BfsInvF ops gens base bs (processGen ops gens x st ig)
      ∧ (alookup (processGen ops gens x st ig).indices x).isSome := by
  unfold processGen
  by_cases hmem : (alookup st.indices (ops.act ig.2 x)).isSome
  · rw [if_pos hmem]
    obtain ⟨hidx, hq⟩ := processGenStab_state ops gens x st ig
    refine ⟨⟨?_, ?_, ?_⟩, ?_⟩
    · rw [hidx]; exact hinv.1
    · rw [hidx, hq]; exact hinv.2.1
    · exact processGenStab_stabs ops laws gens base bs hgens x st ig hig
        hinv.1 hx hmem hinv.2.2
    · rw [hidx]; exact hx
  · rw [if_neg hmem]
    have hnone : alookup st.indices (ops.act ig.2 x) = none :=
      Option.not_isSome_iff_eq_none.mp hmem
    have hximg : ¬ ops.act ig.2 x = x := by
      rintro heq
      rw [heq] at hnone
      rw [hnone] at hx
      cases hx
    have hbimg : ¬ ops.act ig.2 x = base := by
      rintro heq
      rw [heq] at hnone
      rw [hinv.1.base_entry] at hnone
      cases hnone
    refine ⟨⟨⟨?_, ?_⟩, ?_, ?_⟩, ?_⟩
    · show alookup ((ops.act ig.2 x, Int.ofNat ig.1) :: st.indices) base
        = some (Int.negSucc 0)
      rw [alookup_cons_ne _ _ _ _ hbimg]
      exact hinv.1.base_entry
    · intro y hy
      show ∃ n, n + 1 ≤ ((ops.act ig.2 x, Int.ofNat ig.1) :: st.indices).length
        ∧ ReachesN ops gens ((ops.act ig.2 x, Int.ofNat ig.1) :: st.indices) base n y
      by_cases hyim : ops.act ig.2 x = y
      · subst hyim
        obtain ⟨n, hn, hr⟩ := hinv.1.reach x hx
        refine ⟨n + 1, by simp; omega, ?_⟩
        refine ReachesN.step (alookup_cons_self _ _ _) hig ?_
        rw [laws.act_inv ig.2 x]
        exact reachesN_insert ops gens st.indices base _ _ hnone hr
      · rw [show alookup ((ops.act ig.2 x, Int.ofNat ig.1) :: st.indices) y
            = alookup st.indices y from alookup_cons_ne _ _ _ _ hyim] at hy
        obtain ⟨n, hn, hr⟩ := hinv.1.reach y hy
        refine ⟨n, by simp; omega, ?_⟩
        exact reachesN_insert ops gens st.indices base _ _ hnone hr
    · intro y hy
      show (alookup ((ops.act ig.2 x, Int.ofNat ig.1) :: st.indices) y).isSome
      rcases List.mem_append.mp hy with hy | hy
      · by_cases hyim : ops.act ig.2 x = y
        · rw [← hyim, alookup_cons_self]
          rfl
        · rw [alookup_cons_ne _ _ _ _ hyim]
          exact hinv.2.1 y hy
      · rw [List.mem_singleton] at hy
        rw [← hy, alookup_cons_self]
        rfl
    · exact hinv.2.2
    · show (alookup ((ops.act ig.2 x, Int.ofNat ig.1) :: st.indices) x).isSome
      rw [alookup_cons_ne _ _ _ _ hximg]
      exact hx

/-- The inner `for` loop (a fold over the enumerated generators) preserves
the invariant. -/
theorem foldl_processGen_pres (ops : GOps G D) (laws : ActLaws ops)
    (gens : List G) (base : D) (bs : List D)
    (hgens : ∀ g ∈ gens, ∀ b ∈ bs, ops.act g b = b) (x : D) :
    ∀ (l : List (Nat × G)) (st : BfsState G D),
      (∀ ig ∈ l, gens.get? ig.1 = some ig.2) →
      BfsInvF ops gens base bs st →
      (alookup st.indices x).isSome →
      BfsInvF ops gens base bs (l.foldl (processGen ops gens x) st) := by
  intro l
  induction l with
  | nil =>
    intro st _ h _
    exact h
  | cons ig l ih =>
    intro st hl h hx
    rw [List.foldl_cons]
    obtain ⟨h', hx'⟩ := processGen_pres ops laws gens base bs hgens x st ig
      (hl ig (by simp)) h hx
    exact ih _ (fun j hj => hl j (List.mem_cons_of_mem _ hj)) h' hx'

/-- The breadth-first loop preserves the invariant. -/
theorem bfsLoop_pres (ops : GOps G D) (laws : ActLaws ops) (gens : List G)
    (base : D) (bs : List D)
    (hgens : ∀ g ∈ gens, ∀ b ∈ bs, ops.act g b = b) :
    ∀ (fuel : Nat) (st : BfsState G D), BfsInvF ops gens base bs st →
      BfsInvF ops gens base bs (bfsLoop ops gens fuel st) := by
  intro fuel
  induction fuel with
  | zero => intro st h; exact h
  | succ fuel ih =>
    intro st h
    obtain ⟨queue, indices, stabs⟩ := st
    cases queue with
    | nil => exact h
    | cons x rest =>
      show BfsInvF ops gens base bs (bfsLoop ops gens fuel
        ((enumerate 0 gens).foldl (processGen ops gens x)
          { queue := rest, indices := indices, stabs := stabs }))
      refine ih _ ?_
      have hx : (alookup indices x).isSome := h.2.1 x (by simp)
      have hst : BfsInvF ops gens base bs
          { queue := rest, indices := indices, stabs := stabs } :=
        ⟨h.1, fun y hy => h.2.1 y (List.mem_cons_of_mem _ hy), h.2.2⟩
      exact foldl_processGen_pres ops laws gens base bs hgens x
        (enumerate 0 gens) _ (fun ig hig => enumerate_zero_get? gens ig hig)
        hst hx

/-- `BaseStrongGeneratorLevel::new` establishes the level invariant, and
its stabilizers fix the level base and all earlier bases. -/
theorem bsglNew_pres (ops : GOps G D) (laws : ActLaws ops) (base : D)
    (gens : List G) (fuel : Nat) (bs : List D)
    (hgens : ∀ g ∈ gens, ∀ b ∈ bs, ops.act g b = b) :
    LevelInv ops gens base (bsglNew ops base gens fuel).1.indices
      ∧ ∀ s ∈ (bsglNew ops base gens fuel).2,
          (∀ b ∈ bs, ops.act s b = b) ∧ ops.act s base = base := by
  have hinit : BfsInvF ops gens base bs
      { queue := [base], indices := [(base, -1)], stabs := [] } := by
    refine ⟨⟨alookup_cons_self _ _ _, ?_⟩, ?_, ?_⟩
    · intro y hy
      by_cases hb : base = y
      · subst hb
        exact ⟨0, by simp, ReachesN.base_entry (alookup_cons_self _ _ _)⟩
      · exfalso
        rw [alookup_cons_ne _ _ _ _ hb] at hy
        cases hy
    · intro y hy
      rw [List.mem_singleton] at hy
      rw [← hy, alookup_cons_self]
      rfl
    · intro s hs
      cases hs
  have h := bfsLoop_pres ops laws gens base bs hgens fuel _ hinit
  exact ⟨h.1, h.2.2⟩

end invariant

/-- C2: for every level built by `BaseStrongGeneratorLevel::new` over a
lawful action and every element `g`, `transversal_for(g)` is `Some` exactly
when `g.act_on(base)` is a key of the Schreier vector, and the returned
transversal carries the base to that image point. -/
theorem claim_C2 {G D : Type} [DecidableEq D] (ops : GOps G D)
    (laws : ActLaws ops) (base : D) (gens : List G) (fuel : Nat) (g : G) :
    ((∃ t, (bsglNew ops base gens fuel).1.transversalForElem ops g = some t)
        ↔ (alookup (bsglNew ops base gens fuel).1.indices
            (ops.act g (bsglNew ops base gens fuel).1.base)).isSome)
    ∧ (∀ t, (bsglNew ops base gens fuel).1.transversalForElem ops g = some t →
        ops.act t (bsglNew ops base gens fuel).1.base
          = ops.act g (bsglNew ops base gens fuel).1.base) := by
  have hinv : LevelInv ops gens base (bsglNew ops base gens fuel).1.indices :=
    (bsglNew_pres ops laws base gens fuel [] (by simp)).1
  constructor
  · constructor
    · rintro ⟨t, ht⟩
      by_contra hmem
      unfold BSGLevel.transversalForElem transversalFor at ht
      rw [if_neg hmem] at ht
      cases ht
    · intro hmem
      obtain ⟨t, ht, _⟩ := transversalFor_spec ops laws gens base
        (bsglNew ops base gens fuel).1.indices hinv
        (ops.act g (bsglNew ops base gens fuel).1.base) hmem
        ((bsglNew ops base gens fuel).1.indices.length + 1) (by omega)
      exact ⟨t, ht⟩
  · intro t ht
    have hmem : (alookup (bsglNew ops base gens fuel).1.indices
        (ops.act g (bsglNew ops base gens fuel).1.base)).isSome := by
      by_contra hmem
      unfold BSGLevel.transversalForElem transversalFor at ht
      rw [if_neg hmem] at ht
      cases ht
    obtain ⟨t', ht', hact⟩ := transversalFor_spec ops laws gens base
      (bsglNew ops base gens fuel).1.indices hinv
      (ops.act g (bsglNew ops base gens fuel).1.base) hmem
      ((bsglNew ops base gens fuel).1.indices.length + 1) (by omega)
    have : some t = some t' := by
      rw [← ht, ← ht']
      rfl
    cases this
    exact hact

/-- The integer translation action: a lawful, decidable `GroupElement` and
`GroupAction` instance used to witness the generic chain theorems. -/
def intOps : GOps Int Int :=
  { is_identity := fun g => g == 0
    times := fun a b => a + b
    inverse := fun a => -a
    beq := fun a b => a == b
    act := fun g p => p + g
    identE := 0 }

theorem intLaws : ActLaws intOps := by
  refine ⟨?_, ?_, ?_, ?_, ?_⟩ <;> intros <;> simp [intOps] <;> ring

/-- C2 (witness): a concrete level over the translation action with the
orbit point 1 in range. -/
theorem claim_C2_witness :
    ∃ t, (bsglNew intOps 0 [(1 : Int)] 2).1.transversalForElem intOps 1 = some t :=
  (claim_C2 intOps intLaws 0 [(1 : Int)] 2 1).1.mpr (by decide)

/-! ## Stripping through a constructed chain -/

section strip

variable {G D : Type} [DecidableEq D]

/-- The property of a chain suffix that `strip` relies on: each level
satisfies the Schreier-vector invariant and its generators fix all earlier
bases `bs`. -/
inductive StripChain (ops : GOps G D) : List D → List (BSGLevel G D) → Prop
  | nil (bs : List D) : StripChain ops bs []
  | cons {bs : List D} {lv : BSGLevel G D} {rest : List (BSGLevel G D)} :
      LevelInv ops lv.gens lv.base lv.indices →
      (∀ g ∈ lv.gens, ∀ b ∈ bs, ops.act g b = b) →
      StripChain ops (bs ++ [lv.base]) rest →
      StripChain ops bs (lv :: rest)

/-- `Group::new` produces a chain in which every level's generators fix all
earlier base points. -/
theorem groupNewAux_chain (ops : GOps G D) (laws : ActLaws ops)
    (gset : List D) :
    ∀ (fuel : Nat) (gs : List G) (bs : List D),
      (∀ g ∈ gs, ∀ b ∈ bs, ops.act g b = b) →
      ∀ lvs, groupNewAux ops gset fuel gs = some lvs → StripChain ops bs lvs := by
  intro fuel
  induction fuel with
  | zero =>
    intro gs bs hgs lvs h
    rw [groupNewAux] at h
    by_cases he : gs.isEmpty
    · rw [if_pos he] at h
      cases h
      exact StripChain.nil bs
    · rw [if_neg he] at h
      cases h
  | succ fuel ih =>
    intro gs bs hgs lvs h
    rw [groupNewAux] at h
    by_cases he : gs.isEmpty
    · rw [if_pos he] at h
      cases h
      exact StripChain.nil bs
    · rw [if_neg he] at h
      cases hfb : findBase ops gset gs with
      | none =>
        rw [hfb] at h
        cases h
      | some base =>
        rw [hfb] at h
        dsimp only at h
        cases hrest : groupNewAux ops gset fuel (bsglNew ops base gs (fuel + 1)).2 with
        | none =>
          rw [hrest] at h
          cases h
        | some rest =>
          rw [hrest] at h
          cases h
          obtain ⟨hlv, hstabs⟩ := bsglNew_pres ops laws base gs (fuel + 1) bs hgs
          refine StripChain.cons hlv hgs ?_
          refine ih (bsglNew ops base gs (fuel + 1)).2 (bs ++ [base]) ?_ rest hrest
          intro s hsin b hb
          rcases List.mem_append.mp hb with hb | hb
          · exact (hstabs s hsin).1 b hb
          · rw [List.mem_singleton] at hb
            subst hb
            exact (hstabs s hsin).2

/-- The central stripping lemma: on a good chain, `strip` succeeds, its
result fixes all earlier bases, and stripping the result again is the
identity operation. -/
theorem stripGo_spec (ops : GOps G D) (laws : ActLaws ops) :
    ∀ (lvs : List (BSGLevel G D)) (bs : List D) (e : G),
      StripChain ops bs lvs → (∀ b ∈ bs, ops.act e b = b) →
      ∃ r, stripGo ops lvs e = some r ∧ (∀ b ∈ bs, ops.act r b = b)
        ∧ stripGo ops lvs r = some r := by
  intro lvs
  induction lvs with
  | nil =>
    intro bs e _ he
    exact ⟨e, rfl, he, rfl⟩
  | cons lv rest ih =>
    intro bs e hchain he
    cases hchain with
    | cons hlvinv hfix hrest =>
      by_cases hht : lv.hasTransversalFor ops e = true
      · have hmem : (alookup lv.indices (ops.act e lv.base)).isSome := hht
        obtain ⟨t, ht, hact⟩ := transversalFor_spec ops laws lv.gens lv.base
          lv.indices hlvinv (ops.act e lv.base) hmem (lv.indices.length + 1)
          (by omega)
        have htE : lv.transversalForElem ops e = some t := ht
        have hstep : stripGo ops (lv :: rest) e
            = stripGo ops rest (ops.times e (ops.inverse t)) := by
          rw [stripGo, if_pos hht, htE]
        have he1base : ops.act (ops.times e (ops.inverse t)) lv.base = lv.base := by
          rw [laws.act_times, ← hact]
          exact laws.act_inv t lv.base
        have he1bs : ∀ b ∈ bs ++ [lv.base],
            ops.act (ops.times e (ops.inverse t)) b = b := by
          intro b hb
          rcases List.mem_append.mp hb with hb | hb
          · rw [laws.act_times, he b hb]
            exact act_fix_inverse ops laws
              (transversalFor_fix ops laws lv.gens lv.indices b
                (fun g hg => hfix g hg b hb) _ _ t ht)
          · rw [List.mem_singleton] at hb
            subst hb
            exact he1base
        obtain ⟨r, hr1, hr2, hr3⟩ := ih (bs ++ [lv.base])
          (ops.times e (ops.inverse t)) hrest he1bs
        refine ⟨r, ?_, ?_, ?_⟩
        · rw [hstep]
          exact hr1
        · intro b hb
          exact hr2 b (List.mem_append_left _ hb)
        · have hrbase : ops.act r lv.base = lv.base :=
            hr2 lv.base (by simp)
          have hht2 : lv.hasTransversalFor ops r = true := by
            show (alookup lv.indices (ops.act r lv.base)).isSome = true
            rw [hrbase, hlvinv.base_entry]
            rfl
          have htE2 : lv.transversalForElem ops r
              = some (ops.inverse ops.identE) := by
            show transversalFor ops lv.gens lv.indices (ops.act r lv.base)
              (lv.indices.length + 1) = _
            rw [hrbase]
            unfold transversalFor
            rw [if_pos (by rw [hlvinv.base_entry]; rfl)]
            rw [walkAux_base ops lv.gens lv.indices _ lv.base ops.identE
              hlvinv.base_entry]
            rfl
          have hre : ops.times r (ops.inverse (ops.inverse ops.identE)) = r := by
            rw [laws.inv_ident, laws.inv_ident, laws.times_ident]
          rw [stripGo, if_pos hht2, htE2]
          show stripGo ops rest
            (ops.times r (ops.inverse (ops.inverse ops.identE))) = some r
          rw [hre]
          exact hr3
      · have hstep : stripGo ops (lv :: rest) e = some e := by
          rw [stripGo, if_neg hht]
        exact ⟨e, hstep, he, hstep⟩

end strip

/-- C4: for every group built by `Group::new` over a lawful action,
`strip` is idempotent on its own output: `strip(strip(e)) = strip(e)`. -/
theorem claim_C4 {G D : Type} [DecidableEq D] (ops : GOps G D)
    (laws : ActLaws ops) (gset : List D) (gens : List G) (fuel : Nat)
    (grp : GroupM G D) (h : groupNew ops gset gens fuel = some grp) (e : G) :
    (GroupM.strip ops grp e).bind (GroupM.strip ops grp)
      = GroupM.strip ops grp e := by
  unfold groupNew at h
  cases haux : groupNewAux ops gset fuel gens with
  | none =>
    rw [haux] at h
    cases h
  | some lvs =>
    rw [haux] at h
    cases h
    have hchain := groupNewAux_chain ops laws gset fuel gens [] (by simp) lvs haux
    obtain ⟨r, h1, _, h3⟩ := stripGo_spec ops laws lvs [] e hchain (by simp)
    show (stripGo ops lvs e).bind (stripGo ops lvs) = stripGo ops lvs e
    rw [h1]
    show stripGo ops lvs r = some r
    exact h3

/-- The concrete translation-action group used to witness the stripping
theorem. -/
def intStripGroup : GroupM Int Int :=
  match groupNew intOps [0] [(1 : Int)] 3 with
  | some g => g
  | none => ⟨[]⟩

/-- C4 (witness): stripping twice equals stripping once on a concrete
chain and element. -/
theorem claim_C4_witness :
    (GroupM.strip intOps intStripGroup 5).bind (GroupM.strip intOps intStripGroup)
      = GroupM.strip intOps intStripGroup 5 :=
  claim_C4 intOps intLaws [0] [(1 : Int)] 3 intStripGroup (by rfl) 5
